import Mathlib

/-
Verification of the btclib scalar-multiplication module (curvemult2.py, utils.py).

The five scalar-multiplication engines and their public entry points are
embedded as executable Lean functions, faithful to the Python source.
The CurveGroup collaborator (curve.py / curves.py) is not part of the
sources under verification; following the interface contract in the spec
it is modelled by an abstract additive commutative group: Jacobian add of
two points is group addition, the Jacobian infinity INFJ is 0, negate is
group negation.  Python int arithmetic maps to Lean Int, where the Python
floor division and floor modulo agree with Int.ediv and Int.emod because
every divisor in the source is positive.  A Python call that can raise a
ValueError or fail to terminate is embedded with the Res outcome type.
-/

namespace Btclib

/-- Outcome of a Python call: a normal return, a raised error, or a
while loop that never terminates. -/
inductive Res (α : Type) where
  | ok (a : α)
  | err (msg : String)
  | hang
  deriving DecidableEq, Repr

/-- The error message of the negative-scalar guard in every engine
(the source interpolates the scalar into the message; the text is
irrelevant to the claims). -/
def msgNegM : String := "negative m"

/-- The error message of the window guard in the windowed engines. -/
def msgWPos : String := "w must be strictly positive"

/-- Modelled from the spec: the CurveGroup collaborator (curve.py is not in
src).  It provides the group order n and the generator GJ in Jacobian
form; the group law itself is the ambient AddCommGroup structure. -/
structure CurveGroup (G : Type) where
  n : Nat
  GJ : G

/-! ### Digit decomposition (numberToBase) -/

/-- Fuel-indexed little-endian digit extraction: the body of the while
loop of numberToBase.  The fuel argument only makes the recursion
structural; numberToBase supplies fuel n, which is enough for every
base that occurs (b is 2, 3 or a power of two, never below 2). -/
def toDigitsAux (b : Nat) : Nat → Nat → List Nat
  | 0, _ => []
  | fuel + 1, n => if n = 0 then [] else n % b :: toDigitsAux b fuel (n / b)

/-- numberToBase from curvemult2.py: the list of the digits of n written
in base b, most significant digit first, with 0 mapped to [0]. -/
def numberToBase (n b : Nat) : List Nat :=
  if n = 0 then [0] else (toDigitsAux b n n).reverse

/-- Value of a digit list read most-significant first, as folded by the
accumulator loops of the engines. -/
def baseVal (b : Nat) (l : List Nat) : Nat :=
  l.foldl (fun a d => b * a + d) 0

theorem toDigitsAux_eq_digits (b : Nat) (hb : 2 ≤ b) :
    ∀ fuel n, n ≤ fuel → toDigitsAux b fuel n = Nat.digits b n := by
  intro fuel
  induction fuel with
  | zero =>
    intro n hn
    interval_cases n
    simp [toDigitsAux]
  | succ f ih =>
    intro n hn
    match n with
    | 0 => simp [toDigitsAux]
    | m + 1 =>
      have hdiv : (m + 1) / b < m + 1 := Nat.div_lt_self (Nat.succ_pos m) (by omega)
      rw [show toDigitsAux b (f + 1) (m + 1)
            = (m + 1) % b :: toDigitsAux b f ((m + 1) / b) by simp [toDigitsAux]]
      rw [ih ((m + 1) / b) (by omega)]
      rw [Nat.digits_def' (by omega) (Nat.succ_pos m)]

theorem numberToBase_eq (n b : Nat) (hb : 2 ≤ b) (hn : n ≠ 0) :
    numberToBase n b = (Nat.digits b n).reverse := by
  rw [numberToBase, if_neg hn, toDigitsAux_eq_digits b hb n n le_rfl]

theorem numberToBase_digit_lt (n b : Nat) (hb : 2 ≤ b) :
    ∀ d ∈ numberToBase n b, d < b := by
  intro d hd
  by_cases hn : n = 0
  · subst hn
    simp [numberToBase] at hd
    omega
  · rw [numberToBase_eq n b hb hn, List.mem_reverse] at hd
    exact Nat.digits_lt_base (by omega) hd

theorem numberToBase_ne_nil (n b : Nat) (hb : 2 ≤ b) :
    numberToBase n b ≠ [] := by
  by_cases hn : n = 0
  · subst hn; simp [numberToBase]
  · rw [numberToBase_eq n b hb hn]
    simp [Nat.digits_ne_nil_iff_ne_zero, hn]

theorem baseVal_foldl (b : Nat) (l : List Nat) : ∀ v : Nat,
    l.foldl (fun a d => b * a + d) v
      = v * b ^ l.length + l.foldl (fun a d => b * a + d) 0 := by
  induction l with
  | nil => intro v; simp
  | cons x xs ih =>
    intro v
    simp only [List.foldl_cons, List.length_cons]
    rw [ih (b * v + x), ih (b * 0 + x)]
    ring

theorem baseVal_cons (b d : Nat) (l : List Nat) :
    baseVal b (d :: l) = d * b ^ l.length + baseVal b l := by
  simp only [baseVal, List.foldl_cons]
  rw [baseVal_foldl b l (b * 0 + d)]
  ring

theorem baseVal_append (b : Nat) (l₁ l₂ : List Nat) :
    baseVal b (l₁ ++ l₂) = baseVal b l₁ * b ^ l₂.length + baseVal b l₂ := by
  induction l₁ with
  | nil => simp [baseVal]
  | cons d l ih =>
    rw [List.cons_append, baseVal_cons, baseVal_cons, ih]
    simp [List.length_append]
    ring

theorem baseVal_lt (b : Nat) (hb : 1 ≤ b) (l : List Nat) (h : ∀ d ∈ l, d < b) :
    baseVal b l < b ^ l.length := by
  induction l with
  | nil => simp [baseVal]
  | cons d rest ih =>
    rw [baseVal_cons]
    have hd : d < b := h d (List.mem_cons_self d rest)
    have hrest : baseVal b rest < b ^ rest.length :=
      ih (fun x hx => h x (List.mem_cons_of_mem d hx))
    have : d * b ^ rest.length + baseVal b rest
        < (d + 1) * b ^ rest.length := by nlinarith
    calc d * b ^ rest.length + baseVal b rest
        < (d + 1) * b ^ rest.length := this
      _ ≤ b * b ^ rest.length := by
          have : d + 1 ≤ b := hd
          exact Nat.mul_le_mul_right _ this
      _ = b ^ (rest.length + 1) := by ring

theorem baseVal_numberToBase (n b : Nat) (hb : 2 ≤ b) :
    baseVal b (numberToBase n b) = n := by
  by_cases hn : n = 0
  · subst hn; simp [numberToBase, baseVal]
  · rw [numberToBase_eq n b hb hn]
    have : ∀ L : List Nat, baseVal b L.reverse = Nat.ofDigits b L := by
      intro L
      induction L with
      | nil => simp [baseVal]
      | cons d L ih =>
        rw [List.reverse_cons, baseVal_append, ih]
        simp [baseVal, Nat.ofDigits_cons]
        ring
    rw [this (Nat.digits b n)]
    exact_mod_cast Nat.ofDigits_digits b n

/-! ### The signed modulo helper (mods) -/

/-- mods from curvemult2.py.  The source halves w2 with the Python float
division w2 / 2; for w at least 1 that float value is the integer
2 ^ (w - 1), which Int.ediv w2 2 also yields, so the embedding is exact
on every reachable input. -/
def mods (m : Int) (w : Nat) : Int :=
  let w2 : Int := 2 ^ w
  let M := m % w2
  if M ≥ w2 / 2 then M - w2 else M

theorem two_pow_ediv_two (w : Nat) (hw : 1 ≤ w) :
    ((2 : Int) ^ w) / 2 = 2 ^ (w - 1) := by
  have h : (2 : Int) ^ w = 2 ^ (w - 1) * 2 := by
    rw [← pow_succ]
    congr 1
    omega
  rw [h, Int.mul_ediv_cancel _ (by norm_num)]

theorem mods_range (m : Int) (w : Nat) (hw : 1 ≤ w) :
    -(2 ^ (w - 1)) ≤ mods m w ∧ mods m w ≤ 2 ^ (w - 1) - 1 := by
  have hpow : (0 : Int) < 2 ^ w := by positivity
  have hM0 : 0 ≤ m % (2 ^ w) := Int.emod_nonneg m (by omega)
  have hM1 : m % (2 ^ w) < 2 ^ w := Int.emod_lt_of_pos m hpow
  have hsplit : (2 : Int) ^ w = 2 ^ (w - 1) * 2 := by
    rw [← pow_succ]; congr 1; omega
  rw [mods, two_pow_ediv_two w hw]
  by_cases h : m % ((2 : Int) ^ w) ≥ 2 ^ (w - 1)
  · rw [if_pos h]
    constructor <;> omega
  · rw [if_neg h]
    constructor <;> omega

theorem mods_modeq (m : Int) (w : Nat) :
    Int.ModEq (2 ^ w) (mods m w) m := by
  have base : Int.ModEq (2 ^ w) (m % (2 ^ w)) m := Int.emod_emod_of_dvd m dvd_rfl
  rw [mods]
  by_cases h : m % ((2 : Int) ^ w) ≥ ((2 : Int) ^ w) / 2
  · rw [if_pos h]
    have hsub : Int.ModEq (2 ^ w) (m % (2 ^ w) - 2 ^ w) (m % (2 ^ w) - 0) :=
      (Int.ModEq.refl _).sub (Int.modEq_zero_iff_dvd.mpr dvd_rfl)
    have hsub2 : Int.ModEq (2 ^ w) (m % (2 ^ w) - 2 ^ w) (m % (2 ^ w)) := by
      simpa using hsub
    exact hsub2.trans base
  · rw [if_neg h]
    exact base

theorem mods_parity (m : Int) (w : Nat) (hw : 1 ≤ w) :
    Int.ModEq 2 (mods m w) m := by
  have h2 : (2 : Int) ∣ 2 ^ w := dvd_pow_self 2 (by omega)
  exact (mods_modeq m w).of_dvd h2

theorem mods_le_self (m : Int) (w : Nat) (hm : 0 ≤ m) : mods m w ≤ m := by
  have hpow : (0 : Int) < 2 ^ w := by positivity
  have hM1 : m % (2 ^ w) < 2 ^ w := Int.emod_lt_of_pos m hpow
  have hle : m % (2 ^ w) ≤ m := by
    rcases lt_or_le m (2 ^ w) with h | h
    · rw [Int.emod_eq_of_lt hm h]
    · omega
  rw [mods]
  by_cases h : m % ((2 : Int) ^ w) ≥ ((2 : Int) ^ w) / 2
  · rw [if_pos h]; omega
  · rw [if_neg h]; omega

section Engines

variable {G : Type} [AddCommGroup G] [DecidableEq G]

/-! ### Precomputation tables and repeated doubling -/

/-- The table-building loop shared by the engines: starting from the
entry first, each further entry is the previous entry plus step, for k
entries in total.  With step Q and first INFJ this is the loop of the
fixed-window and base-3 engines; with first 2 ^ (w-1) times Q it is the
sliding-window loop; with step 2Q and first Q it is the wNAF loop. -/
def chainTable (step first : G) : Nat → List G
  | 0 => []
  | k + 1 => first :: chainTable step (first + step) k

theorem chainTable_length (step first : G) (k : Nat) :
    (chainTable step first k).length = k := by
  induction k generalizing first with
  | zero => rfl
  | succ k ih => simp [chainTable, ih]

theorem chainTable_getD (step first : G) (k : Nat) :
    ∀ i, i < k → (chainTable step first k).getD i 0 = first + i • step := by
  induction k generalizing first with
  | zero => intro i hi; omega
  | succ k ih =>
    intro i hi
    match i with
    | 0 => simp [chainTable]
    | j + 1 =>
      rw [chainTable]
      have : (first :: chainTable step (first + step) k).getD (j + 1) 0
          = (chainTable step (first + step) k).getD j 0 := rfl
      rw [this, ih (first + step) j (by omega), add_smul, one_smul]
      abel

/-- Repeated doubling: the body of the loops that run R = R + R a fixed
number of times. -/
def doubleN (R : G) : Nat → G
  | 0 => R
  | k + 1 => doubleN (R + R) k

theorem doubleN_eq (R : G) (k : Nat) : doubleN R k = 2 ^ k • R := by
  induction k generalizing R with
  | zero => simp [doubleN]
  | succ k ih =>
    rw [doubleN, ih (R + R), ← two_nsmul R, smul_smul, ← pow_succ]

/-! ### Montgomery ladder engine -/

/-- One iteration of the Montgomery ladder over the state (R, Q): on bit
0 the source sets Q to R + Q then R to R + R, on bit 1 it sets R to
R + Q then Q to Q + Q; both use the old values on the right-hand side. -/
def ladderStep (s : G × G) (b : Nat) : G × G :=
  if b = 0 then (s.1 + s.1, s.1 + s.2) else (s.1 + s.2, s.2 + s.2)

/-- The mult_jac_mont_ladder engine of curvemult2.py: reject a negative
scalar, short-circuit the infinity point, then run the ladder over the
binary digits of m, most significant first, starting from (INFJ, Q). -/
def mult_jac_mont_ladder (m : Int) (Q : G) : Res G :=
  if m < 0 then .err msgNegM
  else if Q = 0 then .ok Q
  else .ok ((numberToBase m.toNat 2).foldl ladderStep (0, Q)).1

theorem ladder_invariant (Q0 : G) (L : List Nat) (hL : ∀ d ∈ L, d < 2) :
    ∀ v : Nat, L.foldl ladderStep (v • Q0, (v + 1) • Q0)
      = ((L.foldl (fun a d => 2 * a + d) v) • Q0,
          ((L.foldl (fun a d => 2 * a + d) v) + 1) • Q0) := by
  induction L with
  | nil => intro v; simp
  | cons b rest ih =>
    intro v
    have hb : b < 2 := hL b (List.mem_cons_self b rest)
    have hrest : ∀ d ∈ rest, d < 2 := fun d hd => hL d (List.mem_cons_of_mem b hd)
    simp only [List.foldl_cons]
    match b, hb with
    | 0, _ =>
      have hstep : ladderStep (v • Q0, (v + 1) • Q0) 0
          = ((2 * v + 0) • Q0, (2 * v + 0 + 1) • Q0) := by
        simp [ladderStep]
        constructor
        · rw [← add_smul]; congr 1; ring
        · rw [← add_smul]; congr 1; ring
      rw [hstep, ih hrest (2 * v + 0)]
    | 1, _ =>
      have hstep : ladderStep (v • Q0, (v + 1) • Q0) 1
          = ((2 * v + 1) • Q0, (2 * v + 1 + 1) • Q0) := by
        simp [ladderStep]
        constructor
        · rw [← add_smul]; congr 1; ring
        · rw [← add_smul]; congr 1; ring
      rw [hstep, ih hrest (2 * v + 1)]

theorem ladder_foldl_eq (Q0 : G) (L : List Nat) (hL : ∀ d ∈ L, d < 2) :
    (L.foldl ladderStep (0, Q0)).1 = (baseVal 2 L) • Q0 := by
  have h0 : ((0 : Nat) • Q0, ((0 : Nat) + 1) • Q0) = ((0 : G), Q0) := by simp
  rw [← h0, ladder_invariant Q0 L hL 0]
  rfl

theorem mult_jac_mont_ladder_eq (m : Int) (hm : 0 ≤ m) (Q : G) :
    mult_jac_mont_ladder m Q = Res.ok (m.toNat • Q) := by
  rw [mult_jac_mont_ladder, if_neg (by omega)]
  by_cases hQ : Q = 0
  · rw [if_pos hQ, hQ, smul_zero]
  · rw [if_neg hQ]
    rw [ladder_foldl_eq Q _ (numberToBase_digit_lt m.toNat 2 le_rfl)]
    rw [baseVal_numberToBase m.toNat 2 le_rfl]

/-- Scalar bookkeeping step shared by the windowed accumulator loops:
distributing one loop iteration over the two running multiples. -/
theorem smul_step (a b c d : Nat) (R S : G) :
    a • (b • R + c • S) + d • S = (a * b) • R + (a * c + d) • S := by
  rw [smul_add, smul_smul, smul_smul, add_smul, add_assoc]

/-! ### Base-3 engine -/

/-- The accumulator loop of mult_jac_base_3: for every further digit,
R is tripled by a doubling plus an addition and the table entry of the
digit is added. -/
def base3Loop (T : List G) : List Nat → G → G
  | [], R => R
  | d :: rest, R => base3Loop T rest (((R + R) + R) + T.getD d 0)

/-- The mult_jac_base_3 engine of curvemult2.py: table [INFJ, Q, 2Q],
decomposition of m in base 3, seed with the leading digit. -/
def mult_jac_base_3 (m : Int) (Q : G) : Res G :=
  if m < 0 then .err msgNegM
  else if Q = 0 then .ok Q
  else .ok (base3Loop (chainTable Q 0 3) (numberToBase m.toNat 3).tail
      ((chainTable Q 0 3).getD ((numberToBase m.toNat 3).headD 0) 0))

theorem base3Loop_eq (Q : G) (T : List G)
    (hT : ∀ i, i < 3 → T.getD i 0 = i • Q) :
    ∀ (L : List Nat) (R : G), (∀ d ∈ L, d < 3) →
      base3Loop T L R = 3 ^ L.length • R + (baseVal 3 L) • Q := by
  intro L
  induction L with
  | nil => intro R _; simp [base3Loop, baseVal]
  | cons d rest ih =>
    intro R hL
    have hd : d < 3 := hL d (List.mem_cons_self d rest)
    have hrest : ∀ x ∈ rest, x < 3 := fun x hx => hL x (List.mem_cons_of_mem d hx)
    have h3 : (R + R) + R = (3 : Nat) • R := by
      rw [show (3 : Nat) = 2 + 1 from rfl, add_smul, two_smul, one_smul]
    rw [base3Loop, ih _ hrest, hT d hd, h3, smul_step, baseVal_cons, List.length_cons]
    have e1 : 3 ^ rest.length * 3 = 3 ^ (rest.length + 1) := by ring
    have e2 : 3 ^ rest.length * d + baseVal 3 rest
        = d * 3 ^ rest.length + baseVal 3 rest := by ring
    rw [e1, e2]

theorem mult_jac_base_3_eq (m : Int) (hm : 0 ≤ m) (Q : G) :
    mult_jac_base_3 m Q = Res.ok (m.toNat • Q) := by
  rw [mult_jac_base_3, if_neg (by omega)]
  by_cases hQ : Q = 0
  · rw [if_pos hQ, hQ, smul_zero]
  · rw [if_neg hQ]
    have hT : ∀ i, i < 3 → (chainTable Q 0 3).getD i 0 = i • Q := by
      intro i hi
      rw [chainTable_getD Q 0 3 i hi, zero_add]
    have hd := numberToBase_digit_lt m.toNat 3 (by omega)
    have hval := baseVal_numberToBase m.toNat 3 (by omega)
    cases hM : numberToBase m.toNat 3 with
    | nil => exact absurd hM (numberToBase_ne_nil m.toNat 3 (by omega))
    | cons h t =>
      rw [hM] at hd hval
      simp only [List.tail_cons, List.headD_cons]
      rw [hT h (hd h (List.mem_cons_self h t))]
      rw [base3Loop_eq Q _ hT t (h • Q) (fun x hx => hd x (List.mem_cons_of_mem h hx))]
      rw [baseVal_cons] at hval
      rw [smul_smul]
      have e : 3 ^ t.length * h + baseVal 3 t = m.toNat := by rw [← hval]; ring
      rw [← add_smul, e]

/-! ### Fixed-window engine -/

/-- The accumulator loop of mult_jac_fixed_window: for every further
base-2^w digit, w doublings then one table addition. -/
def fixedWindowLoop (T : List G) (w : Nat) : List Nat → G → G
  | [], R => R
  | d :: rest, R => fixedWindowLoop T w rest (doubleN R w + T.getD d 0)

/-- The mult_jac_fixed_window engine of curvemult2.py: full table of the
2^w consecutive multiples of Q, decomposition of m in base 2^w, seed
with the leading digit. -/
def mult_jac_fixed_window (m w : Int) (Q : G) : Res G :=
  if m < 0 then .err msgNegM
  else if Q = 0 then .ok Q
  else if w ≤ 0 then .err msgWPos
  else .ok (fixedWindowLoop (chainTable Q 0 (2 ^ w.toNat)) w.toNat
      (numberToBase m.toNat (2 ^ w.toNat)).tail
      ((chainTable Q 0 (2 ^ w.toNat)).getD
        ((numberToBase m.toNat (2 ^ w.toNat)).headD 0) 0))

theorem fixedWindowLoop_eq (Q : G) (w : Nat) (T : List G)
    (hT : ∀ i, i < 2 ^ w → T.getD i 0 = i • Q) :
    ∀ (L : List Nat) (R : G), (∀ d ∈ L, d < 2 ^ w) →
      fixedWindowLoop T w L R = (2 ^ w) ^ L.length • R + (baseVal (2 ^ w) L) • Q := by
  intro L
  induction L with
  | nil => intro R _; simp [fixedWindowLoop, baseVal]
  | cons d rest ih =>
    intro R hL
    have hd : d < 2 ^ w := hL d (List.mem_cons_self d rest)
    have hrest : ∀ x ∈ rest, x < 2 ^ w := fun x hx => hL x (List.mem_cons_of_mem d hx)
    rw [fixedWindowLoop, ih _ hrest, hT d hd, doubleN_eq, smul_step, baseVal_cons,
      List.length_cons]
    have e1 : (2 ^ w) ^ rest.length * 2 ^ w = (2 ^ w) ^ (rest.length + 1) := by ring
    have e2 : (2 ^ w) ^ rest.length * d + baseVal (2 ^ w) rest
        = d * (2 ^ w) ^ rest.length + baseVal (2 ^ w) rest := by ring
    rw [e1, e2]

theorem mult_jac_fixed_window_eq (m w : Int) (hm : 0 ≤ m) (hw : 1 ≤ w) (Q : G) :
    mult_jac_fixed_window m w Q = Res.ok (m.toNat • Q) := by
  have hb : 2 ≤ 2 ^ w.toNat :=
    calc 2 = 2 ^ 1 := by norm_num
      _ ≤ 2 ^ w.toNat := Nat.pow_le_pow_right (by norm_num) (by omega)
  rw [mult_jac_fixed_window, if_neg (by omega)]
  by_cases hQ : Q = 0
  · rw [if_pos hQ, hQ, smul_zero]
  · rw [if_neg hQ, if_neg (by omega)]
    have hT : ∀ i, i < 2 ^ w.toNat → (chainTable Q 0 (2 ^ w.toNat)).getD i 0 = i • Q := by
      intro i hi
      rw [chainTable_getD Q 0 _ i hi, zero_add]
    have hd := numberToBase_digit_lt m.toNat (2 ^ w.toNat) hb
    have hval := baseVal_numberToBase m.toNat (2 ^ w.toNat) hb
    cases hM : numberToBase m.toNat (2 ^ w.toNat) with
    | nil => exact absurd hM (numberToBase_ne_nil m.toNat _ hb)
    | cons h t =>
      rw [hM] at hd hval
      simp only [List.tail_cons, List.headD_cons]
      rw [hT h (hd h (List.mem_cons_self h t))]
      rw [fixedWindowLoop_eq Q w.toNat _ hT t (h • Q)
        (fun x hx => hd x (List.mem_cons_of_mem h hx))]
      rw [baseVal_cons] at hval
      rw [smul_smul]
      have e : (2 ^ w.toNat) ^ t.length * h + baseVal (2 ^ w.toNat) t = m.toNat := by
        rw [← hval]; ring
      rw [← add_smul, e]

/-! ### Sliding-window engine -/

/-- The truncated-window tail branch of the sliding-window loop: plain
double-and-add, bit by bit, over all remaining digits; the source
returns its result immediately after this branch. -/
def daLoop (Q : G) : List Nat → G → G
  | [], R => R
  | d :: rest, R => daLoop Q rest (if d = 1 then (R + R) + Q else R + R)

/-- The precomputation table of the sliding-window engine: P is Q
doubled w - 1 times, and every further entry adds Q, giving the
2 ^ (w-1) consecutive multiples of Q from 2 ^ (w-1) Q up. -/
def slidingTable (Q : G) (w : Nat) : List G :=
  chainTable Q (doubleN Q (w - 1)) (2 ^ (w - 1))

/-- The scan loop of mult_jac_sliding_window.  On digit 0, double and
advance one digit; on digit 1 with fewer than w digits left, run the
bit-by-bit tail branch and return; otherwise read the w-digit window
value t, double w times and add the table entry at t - 2^(w-1).  The
engine reaches this loop only with w at least 1, so consuming the head
digit and then w - 1 digits of rest consumes exactly the w digits of
the window, as the source i += j does. -/
def slidingLoop (Q : G) (T : List G) (w : Nat) : Nat → List Nat → G → G
  | 0, _, R => R
  | _ + 1, [], R => R
  | fuel + 1, 0 :: rest, R => slidingLoop Q T w fuel rest (R + R)
  | fuel + 1, (d + 1) :: rest, R =>
    if rest.length + 1 < w then daLoop Q ((d + 1) :: rest) R
    else slidingLoop Q T w fuel (rest.drop (w - 1))
      (doubleN R w + T.getD (baseVal 2 (((d + 1) :: rest).take w) - 2 ^ (w - 1)) 0)

/-- The mult_jac_sliding_window engine of curvemult2.py.  The while
loop advances at least one digit position per iteration, so the digit
count bounds the iteration count and is passed as the structural fuel
of the loop. -/
def mult_jac_sliding_window (m w : Int) (Q : G) : Res G :=
  if m < 0 then .err msgNegM
  else if Q = 0 then .ok Q
  else if w ≤ 0 then .err msgWPos
  else .ok (slidingLoop Q (slidingTable Q w.toNat) w.toNat
      (numberToBase m.toNat 2).length (numberToBase m.toNat 2) 0)

theorem daLoop_eq (Q : G) : ∀ (L : List Nat) (R : G), (∀ d ∈ L, d < 2) →
    daLoop Q L R = 2 ^ L.length • R + (baseVal 2 L) • Q := by
  intro L
  induction L with
  | nil => intro R _; simp [daLoop, baseVal]
  | cons d rest ih =>
    intro R hL
    have hd : d < 2 := hL d (List.mem_cons_self d rest)
    have hrest : ∀ x ∈ rest, x < 2 := fun x hx => hL x (List.mem_cons_of_mem d hx)
    match d, hd with
    | 0, _ =>
      rw [daLoop, if_neg (by decide), ih _ hrest, ← two_nsmul R, smul_smul, ← pow_succ,
        baseVal_cons, List.length_cons]
      simp
    | 1, _ =>
      have h2 : (R + R) + Q = (2 : Nat) • R + (1 : Nat) • Q := by
        rw [two_nsmul, one_smul]
      rw [daLoop, if_pos rfl, ih _ hrest, h2, smul_step, baseVal_cons, List.length_cons]
      have e1 : 2 ^ rest.length * 2 = 2 ^ (rest.length + 1) := by ring
      have e2 : 2 ^ rest.length * 1 + baseVal 2 rest
          = 1 * 2 ^ rest.length + baseVal 2 rest := by ring
      rw [e1, e2]

theorem slidingLoop_eq (Q : G) (w : Nat) (hw : 1 ≤ w) (T : List G)
    (hT : ∀ i, i < 2 ^ (w - 1) → T.getD i 0 = (2 ^ (w - 1) + i) • Q) :
    ∀ (n : Nat) (L : List Nat) (R : G), L.length ≤ n → (∀ d ∈ L, d < 2) →
      slidingLoop Q T w n L R = 2 ^ L.length • R + (baseVal 2 L) • Q := by
  intro n
  induction n with
  | zero =>
    intro L R hlen _
    have hnil : L = [] := List.length_eq_zero.mp (by omega)
    subst hnil
    simp [slidingLoop, baseVal]
  | succ n ih =>
    intro L R hlen hL
    match L with
    | [] => simp [slidingLoop, baseVal]
    | d :: rest =>
      have hd : d < 2 := hL d (List.mem_cons_self d rest)
      have hrest : ∀ x ∈ rest, x < 2 := fun x hx => hL x (List.mem_cons_of_mem d hx)
      have hlenr : rest.length ≤ n := by
        simp only [List.length_cons] at hlen; omega
      match d, hd with
      | 0, _ =>
        rw [show slidingLoop Q T w (n + 1) (0 :: rest) R
            = slidingLoop Q T w n rest (R + R) from rfl]
        rw [ih rest (R + R) hlenr hrest, ← two_nsmul R, smul_smul, ← pow_succ,
          baseVal_cons, List.length_cons]
        simp
      | 1, _ =>
        by_cases hshort : rest.length + 1 < w
        · rw [show slidingLoop Q T w (n + 1) (1 :: rest) R = daLoop Q (1 :: rest) R from by
            simp only [slidingLoop]; rw [if_pos hshort]]
          exact daLoop_eq Q (1 :: rest) R hL
        · push_neg at hshort
          have hdrop : (1 :: rest).drop w = rest.drop (w - 1) := by
            cases w with
            | zero => omega
            | succ k => simp
          have hsplit : (1 :: rest).take w ++ rest.drop (w - 1) = 1 :: rest := by
            rw [← hdrop, List.take_append_drop]
          have htake : (1 :: rest).take w = 1 :: rest.take (w - 1) := by
            cases w with
            | zero => omega
            | succ k => simp
          have htakelen : ((1 :: rest).take w).length = w := by
            rw [List.length_take]
            simp only [List.length_cons]
            omega
          have ht1 : 2 ^ (w - 1) ≤ baseVal 2 ((1 :: rest).take w) := by
            rw [htake, baseVal_cons, List.length_take]
            have : min (w - 1) rest.length = w - 1 := by omega
            rw [this]
            omega
          have ht2 : baseVal 2 ((1 :: rest).take w) < 2 ^ w := by
            have hdig : ∀ x ∈ (1 :: rest).take w, x < 2 :=
              fun x hx => hL x (List.mem_of_mem_take hx)
            have := baseVal_lt 2 (by omega) _ hdig
            rwa [htakelen] at this
          have hidx : baseVal 2 ((1 :: rest).take w) - 2 ^ (w - 1) < 2 ^ (w - 1) := by
            have hpow : 2 ^ w = 2 ^ (w - 1) + 2 ^ (w - 1) := by
              have h : w = (w - 1) + 1 := by omega
              calc 2 ^ w = 2 ^ ((w - 1) + 1) := by rw [← h]
                _ = 2 ^ (w - 1) + 2 ^ (w - 1) := by rw [pow_succ]; ring
            omega
          have hentry : T.getD (baseVal 2 ((1 :: rest).take w) - 2 ^ (w - 1)) 0
              = (baseVal 2 ((1 :: rest).take w)) • Q := by
            rw [hT _ hidx]
            congr 1
            omega
          rw [show slidingLoop Q T w (n + 1) (1 :: rest) R
              = slidingLoop Q T w n (rest.drop (w - 1))
                (doubleN R w + T.getD (baseVal 2 ((1 :: rest).take w) - 2 ^ (w - 1)) 0) from by
            simp only [slidingLoop]; rw [if_neg (by omega)]]
          rw [hentry, doubleN_eq]
          have hlend : (rest.drop (w - 1)).length ≤ n := by
            rw [List.length_drop]; omega
          have hdigd : ∀ x ∈ rest.drop (w - 1), x < 2 :=
            fun x hx => hrest x (List.mem_of_mem_drop hx)
          rw [ih (rest.drop (w - 1)) _ hlend hdigd, smul_step]
          have hlen2 : (1 :: rest).length = w + (rest.drop (w - 1)).length := by
            rw [List.length_drop, List.length_cons]
            omega
          have hval2 : baseVal 2 (1 :: rest)
              = baseVal 2 ((1 :: rest).take w) * 2 ^ (rest.drop (w - 1)).length
                + baseVal 2 (rest.drop (w - 1)) := by
            conv_lhs => rw [← hsplit]
            rw [baseVal_append, List.length_drop]
          rw [hlen2, hval2]
          have e1 : 2 ^ (rest.drop (w - 1)).length * 2 ^ w
              = 2 ^ (w + (rest.drop (w - 1)).length) := by
            rw [pow_add]; ring
          have e2 : 2 ^ (rest.drop (w - 1)).length * baseVal 2 ((1 :: rest).take w)
                + baseVal 2 (rest.drop (w - 1))
              = baseVal 2 ((1 :: rest).take w) * 2 ^ (rest.drop (w - 1)).length
                + baseVal 2 (rest.drop (w - 1)) := by ring
          rw [e1, e2]

theorem mult_jac_sliding_window_eq (m w : Int) (hm : 0 ≤ m) (hw : 1 ≤ w) (Q : G) :
    mult_jac_sliding_window m w Q = Res.ok (m.toNat • Q) := by
  rw [mult_jac_sliding_window, if_neg (by omega)]
  by_cases hQ : Q = 0
  · rw [if_pos hQ, hQ, smul_zero]
  · rw [if_neg hQ, if_neg (by omega)]
    have hT : ∀ i, i < 2 ^ (w.toNat - 1) →
        (slidingTable Q w.toNat).getD i 0 = (2 ^ (w.toNat - 1) + i) • Q := by
      intro i hi
      rw [slidingTable, chainTable_getD _ _ _ i hi, doubleN_eq, add_smul]
    rw [slidingLoop_eq Q w.toNat (by omega) (slidingTable Q w.toNat) hT
      (numberToBase m.toNat 2).length (numberToBase m.toNat 2) 0
      le_rfl (numberToBase_digit_lt m.toNat 2 le_rfl)]
    rw [baseVal_numberToBase m.toNat 2 le_rfl]
    simp

/-! ### wNAF engine -/

/-- The signed-digit decomposition loop of mult_jac_w_NAF, with the
while loop of the source made structural by an explicit fuel argument:
none is returned exactly when the loop would still be running after
fuel iterations.  The engine passes fuel m + 1, which the lemma
wnafLoop_isSome shows is always enough when w is at least 2; for w = 1
the loop genuinely never terminates on odd scalars. -/
def wnafLoop (w : Nat) : Nat → Int → Option (List Int)
  | 0, m => if 0 < m then none else some []
  | fuel + 1, m =>
    if 0 < m then
      if m % 2 = 1 then
        (wnafLoop w fuel ((m - mods m w) / 2)).map (fun D => mods m w :: D)
      else
        (wnafLoop w fuel (m / 2)).map (fun D => (0 : Int) :: D)
    else some []

/-- Value of a signed-digit list, least significant digit first: the
quantity the decomposition loop takes apart. -/
def ofDigitsZ : List Int → Int
  | [] => 0
  | d :: D => d + 2 * ofDigitsZ D

/-- Value of a signed-digit list, most significant digit first: the
quantity the scan loop accumulates. -/
def msbValZ (D : List Int) : Int :=
  D.foldl (fun a d => 2 * a + d) 0

/-- The wNAF precomputation table: the half odd multiples Q, 3Q, 5Q,
built by chained additions of 2Q, followed by the negation of each of
those entries. -/
def wnafTable (Q : G) (half : Nat) : List G :=
  chainTable (Q + Q) Q half ++ (chainTable (Q + Q) Q half).map (fun P => -P)

/-- The scan loop of mult_jac_w_NAF over the signed digits, most
significant digit first: always double, then for a nonzero digit add
the table entry, a positive digit indexing the lower half of the table
and a negative digit indexing the upper, negated, half. -/
def wnafScan (T : List G) (half : Nat) : List Int → G → G
  | [], R => R
  | d :: rest, R =>
    if d ≠ 0 then
      if d > 0 then wnafScan T half rest ((R + R) + T.getD ((d - 1) / 2).toNat 0)
      else wnafScan T half rest ((R + R) + T.getD (((half : Int) - (d + 1) / 2)).toNat 0)
    else wnafScan T half rest (R + R)

/-- The mult_jac_w_NAF engine of curvemult2.py. -/
def mult_jac_w_NAF (m w : Int) (Q : G) : Res G :=
  if m < 0 then .err msgNegM
  else if m = 0 then .ok 0
  else if Q = 0 then .ok Q
  else if w ≤ 0 then .err msgWPos
  else
    match wnafLoop w.toNat (m.toNat + 1) m with
    | none => .hang
    | some M => .ok (wnafScan (wnafTable Q (2 ^ w.toNat / 2)) (2 ^ w.toNat / 2) M.reverse 0)

theorem emod_le_self (m n : Int) (hm : 0 ≤ m) (hn : 0 < n) : m % n ≤ m := by
  rcases lt_or_le m n with h | h
  · rw [Int.emod_eq_of_lt hm h]
  · have := Int.emod_lt_of_pos m hn
    omega

/-- In one odd iteration of the decomposition loop with w at least 2,
the scalar strictly decreases and stays non-negative. -/
theorem wnaf_step_lt (m : Int) (w : Nat) (hw : 2 ≤ w) (hm : 0 < m) (hodd : m % 2 = 1) :
    0 ≤ (m - mods m w) / 2 ∧ (m - mods m w) / 2 < m := by
  have hpow : (0 : Int) < 2 ^ w := by positivity
  have hsplit : (2 : Int) ^ w = 2 * 2 ^ (w - 1) := by
    have h : w = (w - 1) + 1 := by omega
    calc (2 : Int) ^ w = 2 ^ ((w - 1) + 1) := by rw [← h]
      _ = 2 * 2 ^ (w - 1) := by rw [pow_succ]; ring
  have hhalf_even : (2 : Int) ^ (w - 1) % 2 = 0 := by
    have h : (2 : Int) ^ (w - 1) = 2 ^ (w - 2) * 2 := by
      rw [← pow_succ]; congr 1; omega
    rw [h]
    exact Int.mul_emod_left _ 2
  have hM0 : 0 ≤ m % 2 ^ w := Int.emod_nonneg m (by omega)
  have hMle : m % 2 ^ w ≤ m := emod_le_self m (2 ^ w) (by omega) hpow
  have hbody : mods m w
      = if m % 2 ^ w ≥ 2 ^ (w - 1) then m % 2 ^ w - 2 ^ w else m % 2 ^ w := by
    simp only [mods, two_pow_ediv_two w (by omega)]
  have hd_le : mods m w ≤ m := mods_le_self m w (by omega)
  have hkey : -(mods m w) < m := by
    by_cases hb : m % 2 ^ w ≥ (2 : Int) ^ (w - 1)
    · rw [hbody, if_pos hb]
      omega
    · rw [hbody, if_neg hb]
      omega
  constructor
  · exact Int.ediv_nonneg (by omega) (by norm_num)
  · exact (Int.ediv_lt_iff_lt_mul (by norm_num)).mpr (by omega)

theorem msbValZ_foldl (l : List Int) : ∀ v : Int,
    l.foldl (fun a d => 2 * a + d) v
      = v * 2 ^ l.length + l.foldl (fun a d => 2 * a + d) 0 := by
  induction l with
  | nil => intro v; simp
  | cons x xs ih =>
    intro v
    simp only [List.foldl_cons, List.length_cons]
    rw [ih (2 * v + x), ih (2 * 0 + x)]
    ring

theorem msbValZ_cons (d : Int) (l : List Int) :
    msbValZ (d :: l) = d * 2 ^ l.length + msbValZ l := by
  simp only [msbValZ, List.foldl_cons]
  rw [msbValZ_foldl l (2 * 0 + d)]
  ring

theorem msbValZ_append (l₁ l₂ : List Int) :
    msbValZ (l₁ ++ l₂) = msbValZ l₁ * 2 ^ l₂.length + msbValZ l₂ := by
  induction l₁ with
  | nil => simp [msbValZ]
  | cons d l ih =>
    rw [List.cons_append, msbValZ_cons, msbValZ_cons, ih]
    simp [List.length_append]
    ring

theorem msbValZ_reverse (D : List Int) : msbValZ D.reverse = ofDigitsZ D := by
  induction D with
  | nil => simp [msbValZ, ofDigitsZ]
  | cons d D ih =>
    rw [List.reverse_cons, msbValZ_append, ih, ofDigitsZ]
    simp [msbValZ]
    ring

/-- Scalar bookkeeping step of the signed-digit scan, over Int smul. -/
theorem smul_stepZ (a b c d : Int) (R S : G) :
    a • (b • R + c • S) + d • S = (a * b) • R + (a * c + d) • S := by
  rw [smul_add, smul_smul, smul_smul, add_smul, add_assoc]

theorem getD_map_neg (l : List G) (j : Nat) (hj : j < l.length) :
    (l.map (fun P => -P)).getD j 0 = -(l.getD j 0) := by
  rw [List.getD_eq_getElem l 0 hj, List.getD_eq_getElem _ 0 (by simpa using hj),
    List.getElem_map]

theorem wnafTable_lower (Q : G) (half : Nat) (i : Nat) (hi : i < half) :
    (wnafTable Q half).getD i 0 = (2 * (i : Int) + 1) • Q := by
  have hlen : (chainTable (Q + Q) Q half).length = half := chainTable_length _ _ _
  rw [wnafTable, List.getD_append _ _ _ _ (by omega), chainTable_getD _ _ _ i hi]
  have h2 : Q + i • (Q + Q) = (2 * i + 1) • Q := by
    rw [← two_nsmul Q, smul_smul, add_smul, one_smul, mul_comm]
    abel
  rw [h2, ← natCast_zsmul]
  have h3 : ((2 * i + 1 : Nat) : Int) = 2 * (i : Int) + 1 := by push_cast; ring
  rw [h3]

theorem wnafTable_upper (Q : G) (half : Nat) (i : Nat) (hi1 : half ≤ i)
    (hi2 : i < 2 * half) :
    (wnafTable Q half).getD i 0 = -((2 * ((i : Int) - half) + 1) • Q) := by
  have hlen : (chainTable (Q + Q) Q half).length = half := chainTable_length _ _ _
  rw [wnafTable, List.getD_append_right _ _ _ _ (by omega)]
  rw [hlen, getD_map_neg _ _ (by omega), chainTable_getD _ _ _ (i - half) (by omega)]
  have h2 : Q + (i - half) • (Q + Q) = (2 * (i - half) + 1) • Q := by
    rw [← two_nsmul Q, smul_smul, add_smul, one_smul, mul_comm]
    abel
  rw [h2, ← natCast_zsmul]
  congr 2
  push_cast [Nat.cast_sub hi1]
  ring

/-- With w at least 2 the decomposition loop terminates: any fuel
strictly larger than the scalar is enough, because the scalar strictly
decreases at every iteration. -/
theorem wnafLoop_isSome (w : Nat) (hw : 2 ≤ w) :
    ∀ (fuel : Nat) (m : Int), 0 ≤ m → m < (fuel : Int) →
      (wnafLoop w fuel m).isSome := by
  intro fuel
  induction fuel with
  | zero =>
    intro m hm hlt
    exfalso
    simp only [Nat.cast_zero] at hlt
    omega
  | succ f ih =>
    intro m hm hlt
    simp only [wnafLoop]
    by_cases h0 : 0 < m
    · rw [if_pos h0]
      by_cases hodd : m % 2 = 1
      · rw [if_pos hodd]
        have hstep := wnaf_step_lt m w hw h0 hodd
        have hrec := ih ((m - mods m w) / 2) hstep.1 (by push_cast at hlt ⊢; omega)
        simpa using hrec
      · rw [if_neg hodd]
        have h2 : 0 ≤ m / 2 := Int.ediv_nonneg hm (by norm_num)
        have h3 : m / 2 < m := (Int.ediv_lt_iff_lt_mul (by norm_num)).mpr (by omega)
        have hrec := ih (m / 2) h2 (by push_cast at hlt ⊢; omega)
        simpa using hrec
    · rw [if_neg h0]
      simp

/-- The decomposition loop is value preserving: the emitted signed
digits, least significant first, recombine to the input scalar. -/
theorem wnafLoop_val (w : Nat) (hw : 1 ≤ w) :
    ∀ (fuel : Nat) (m : Int), 0 ≤ m → ∀ D, wnafLoop w fuel m = some D →
      ofDigitsZ D = m := by
  intro fuel
  induction fuel with
  | zero =>
    intro m hm D hD
    simp only [wnafLoop] at hD
    by_cases h0 : 0 < m
    · rw [if_pos h0] at hD
      exact absurd hD (by simp)
    · rw [if_neg h0] at hD
      have hnil : D = [] := (Option.some_inj.mp hD).symm
      subst hnil
      simp only [ofDigitsZ]
      omega
  | succ f ih =>
    intro m hm D hD
    simp only [wnafLoop] at hD
    by_cases h0 : 0 < m
    · rw [if_pos h0] at hD
      by_cases hodd : m % 2 = 1
      · rw [if_pos hodd] at hD
        obtain ⟨D2, hD2, hcons⟩ := Option.map_eq_some'.mp hD
        subst hcons
        have hpar : mods m w % 2 = m % 2 := mods_parity m w hw
        have hdvd : (2 : Int) ∣ m - mods m w := Int.dvd_of_emod_eq_zero (by omega)
        have hnn : 0 ≤ (m - mods m w) / 2 :=
          Int.ediv_nonneg (by have := mods_le_self m w hm; omega) (by norm_num)
        have hval := ih ((m - mods m w) / 2) hnn D2 hD2
        simp only [ofDigitsZ]
        rw [hval, Int.mul_ediv_cancel' hdvd]
        ring
      · rw [if_neg hodd] at hD
        obtain ⟨D2, hD2, hcons⟩ := Option.map_eq_some'.mp hD
        subst hcons
        have hmod2 : 0 ≤ m % 2 ∧ m % 2 < 2 :=
          ⟨Int.emod_nonneg m (by norm_num), Int.emod_lt_of_pos m (by norm_num)⟩
        have hdvd : (2 : Int) ∣ m := Int.dvd_of_emod_eq_zero (by omega)
        have hnn : 0 ≤ m / 2 := Int.ediv_nonneg hm (by norm_num)
        have hval := ih (m / 2) hnn D2 hD2
        simp only [ofDigitsZ]
        rw [hval, Int.mul_ediv_cancel' hdvd]
        ring
    · rw [if_neg h0] at hD
      have hnil : D = [] := (Option.some_inj.mp hD).symm
      subst hnil
      simp only [ofDigitsZ]
      omega

/-- Every digit the decomposition loop emits with w at least 2 is zero
or odd and strictly inside the centered window range. -/
theorem wnafLoop_digits (w : Nat) (hw : 2 ≤ w) :
    ∀ (fuel : Nat) (m : Int), ∀ D, wnafLoop w fuel m = some D →
      ∀ d ∈ D, d = 0 ∨ (d % 2 = 1 ∧ -(2 ^ (w - 1) : Int) < d ∧ d < 2 ^ (w - 1)) := by
  intro fuel
  induction fuel with
  | zero =>
    intro m D hD d hd
    simp only [wnafLoop] at hD
    by_cases h0 : 0 < m
    · rw [if_pos h0] at hD
      exact absurd hD (by simp)
    · rw [if_neg h0] at hD
      have hnil : D = [] := (Option.some_inj.mp hD).symm
      subst hnil
      exact absurd hd (by simp)
  | succ f ih =>
    intro m D hD d hd
    simp only [wnafLoop] at hD
    by_cases h0 : 0 < m
    · rw [if_pos h0] at hD
      by_cases hodd : m % 2 = 1
      · rw [if_pos hodd] at hD
        obtain ⟨D2, hD2, hcons⟩ := Option.map_eq_some'.mp hD
        subst hcons
        rcases List.mem_cons.mp hd with hhead | htail
        · subst hhead
          right
          have hpar : mods m w % 2 = m % 2 := mods_parity m w (by omega)
          have hrange := mods_range m w (by omega)
          have hhalf_even : (2 : Int) ^ (w - 1) % 2 = 0 := by
            have h : (2 : Int) ^ (w - 1) = 2 ^ (w - 2) * 2 := by
              rw [← pow_succ]; congr 1; omega
            rw [h]
            exact Int.mul_emod_left _ 2
          refine ⟨by omega, by omega, by omega⟩
        · exact ih ((m - mods m w) / 2) D2 hD2 d htail
      · rw [if_neg hodd] at hD
        obtain ⟨D2, hD2, hcons⟩ := Option.map_eq_some'.mp hD
        subst hcons
        rcases List.mem_cons.mp hd with hhead | htail
        · subst hhead
          left
          rfl
        · exact ih (m / 2) D2 hD2 d htail
    · rw [if_neg h0] at hD
      have hnil : D = [] := (Option.some_inj.mp hD).symm
      subst hnil
      exact absurd hd (by simp)

/-- The signed-digit scan accumulates the most-significant-first value
of the digits, looking every nonzero digit up in the table. -/
theorem wnafScan_eq (Q : G) (half : Nat) (T : List G)
    (hTlow : ∀ i, i < half → T.getD i 0 = (2 * (i : Int) + 1) • Q)
    (hThigh : ∀ i, half ≤ i → i < 2 * half →
      T.getD i 0 = -((2 * ((i : Int) - half) + 1) • Q)) :
    ∀ (D : List Int) (R : G),
      (∀ d ∈ D, d = 0 ∨ (d % 2 = 1 ∧ -(half : Int) < d ∧ d < half)) →
      wnafScan T half D R = (2 : Int) ^ D.length • R + (msbValZ D) • Q := by
  intro D
  induction D with
  | nil => intro R _; simp [wnafScan, msbValZ]
  | cons d rest ih =>
    intro R hD
    have hd := hD d (List.mem_cons_self d rest)
    have hrest : ∀ x ∈ rest, x = 0 ∨ (x % 2 = 1 ∧ -(half : Int) < x ∧ x < half) :=
      fun x hx => hD x (List.mem_cons_of_mem d hx)
    have hstep : ∀ S : G, S = d • Q →
        wnafScan T half rest ((R + R) + S)
          = (2 : Int) ^ (rest.length + 1) • R + (d * 2 ^ rest.length + msbValZ rest) • Q := by
      intro S hS
      have h2R : (R + R) + S = (2 : Int) • R + d • Q := by
        rw [hS, two_zsmul]
      rw [h2R, ih _ hrest, smul_stepZ]
      have e1 : (2 : Int) ^ rest.length * 2 = 2 ^ (rest.length + 1) := by ring
      have e2 : (2 : Int) ^ rest.length * d + msbValZ rest
          = d * 2 ^ rest.length + msbValZ rest := by ring
      rw [e1, e2]
    rcases hd with hzero | ⟨hodd, hlow, hhigh⟩
    · subst hzero
      rw [show wnafScan T half ((0 : Int) :: rest) R = wnafScan T half rest (R + R) from by
        simp [wnafScan]]
      have h2R : R + R = (2 : Int) • R := (two_zsmul R).symm
      rw [h2R, ih _ hrest, smul_smul, ← pow_succ]
      rw [msbValZ_cons, List.length_cons]
      simp
    · by_cases hpos : d > 0
      · rw [show wnafScan T half (d :: rest) R
            = wnafScan T half rest ((R + R) + T.getD ((d - 1) / 2).toNat 0) from by
          rw [wnafScan, if_pos (by omega), if_pos hpos]]
        have hidx : ((d - 1) / 2).toNat < half := by omega
        rw [List.length_cons, msbValZ_cons]
        apply hstep
        rw [hTlow _ hidx]
        congr 1
        omega
      · rw [show wnafScan T half (d :: rest) R
            = wnafScan T half rest
                ((R + R) + T.getD (((half : Int) - (d + 1) / 2)).toNat 0) from by
          rw [wnafScan, if_pos (by omega), if_neg hpos]]
        have hidx1 : half ≤ (((half : Int) - (d + 1) / 2)).toNat := by omega
        have hidx2 : (((half : Int) - (d + 1) / 2)).toNat < 2 * half := by omega
        rw [List.length_cons, msbValZ_cons]
        apply hstep
        rw [hThigh _ hidx1 hidx2, ← neg_smul]
        congr 1
        omega

/-- Functional correctness of the wNAF engine for w at least 2. -/
theorem mult_jac_w_NAF_eq (m w : Int) (hm : 0 ≤ m) (hw : 2 ≤ w) (Q : G) :
    mult_jac_w_NAF m w Q = Res.ok (m.toNat • Q) := by
  rw [mult_jac_w_NAF, if_neg (by omega)]
  by_cases hm0 : m = 0
  · rw [if_pos hm0, hm0]
    simp
  · rw [if_neg hm0]
    by_cases hQ : Q = 0
    · rw [if_pos hQ, hQ, smul_zero]
    · rw [if_neg hQ, if_neg (by omega)]
      have hsome := wnafLoop_isSome w.toNat (by omega) (m.toNat + 1) m hm (by omega)
      obtain ⟨D, hD⟩ := Option.isSome_iff_exists.mp hsome
      rw [hD]
      show Res.ok (wnafScan (wnafTable Q (2 ^ w.toNat / 2)) (2 ^ w.toNat / 2) D.reverse 0)
          = Res.ok (m.toNat • Q)
      have hhalfeq : 2 ^ w.toNat / 2 = 2 ^ (w.toNat - 1) := by
        have h : w.toNat = (w.toNat - 1) + 1 := by omega
        calc 2 ^ w.toNat / 2 = 2 ^ ((w.toNat - 1) + 1) / 2 := by rw [← h]
          _ = 2 ^ (w.toNat - 1) := by rw [pow_succ, Nat.mul_div_cancel _ (by norm_num)]
      have hdig := wnafLoop_digits w.toNat (by omega) (m.toNat + 1) m D hD
      have hdigrev : ∀ d ∈ D.reverse,
          d = 0 ∨ (d % 2 = 1 ∧ -((2 ^ w.toNat / 2 : Nat) : Int) < d
            ∧ d < ((2 ^ w.toNat / 2 : Nat) : Int)) := by
        intro d hd
        have hcast : ((2 ^ w.toNat / 2 : Nat) : Int) = (2 : Int) ^ (w.toNat - 1) := by
          rw [hhalfeq]
          push_cast
          ring
        rw [hcast]
        exact hdig d (List.mem_reverse.mp hd)
      rw [wnafScan_eq Q (2 ^ w.toNat / 2) (wnafTable Q (2 ^ w.toNat / 2))
        (fun i hi => wnafTable_lower Q _ i hi)
        (fun i hi1 hi2 => wnafTable_upper Q _ i hi1 hi2)
        D.reverse 0 hdigrev]
      rw [msbValZ_reverse D, wnafLoop_val w.toNat (by omega) (m.toNat + 1) m hm D hD]
      rw [smul_zero, zero_add, ← natCast_zsmul, Int.toNat_of_nonneg hm]

/-! ### Ghost operation counts for the Montgomery ladder -/

/-- The ladder iteration with ghost counters for the two group-law
calls the source makes per bit: one addition with distinct arguments
and one doubling (a call whose two arguments coincide), in both
branches.  The point part coincides with ladderStep. -/
def ladderStepInstr (s : (G × G) × Nat × Nat) (b : Nat) : (G × G) × Nat × Nat :=
  if b = 0 then ((s.1.1 + s.1.1, s.1.1 + s.1.2), s.2.1 + 1, s.2.2 + 1)
  else ((s.1.1 + s.1.2, s.1.2 + s.1.2), s.2.1 + 1, s.2.2 + 1)

/-- Group-law call counts of the Montgomery ladder engine on scalar m:
the pair (additions, doublings). -/
def montLadderOps (m : Int) (Q : G) : Nat × Nat :=
  ((numberToBase m.toNat 2).foldl ladderStepInstr ((0, Q), 0, 0)).2

theorem ladderStepInstr_eq (s : G × G) (a d : Nat) (b : Nat) :
    ladderStepInstr ((s, a, d)) b = (ladderStep s b, a + 1, d + 1) := by
  by_cases hb : b = 0
  · simp [ladderStepInstr, ladderStep, hb]
  · simp [ladderStepInstr, ladderStep, hb]

theorem ladderInstr_foldl (L : List Nat) :
    ∀ (s : G × G) (a d : Nat),
      L.foldl ladderStepInstr ((s, a, d))
        = (L.foldl ladderStep s, a + L.length, d + L.length) := by
  induction L with
  | nil => intro s a d; simp
  | cons b rest ih =>
    intro s a d
    simp only [List.foldl_cons, List.length_cons]
    rw [ladderStepInstr_eq, ih (ladderStep s b) (a + 1) (d + 1)]
    simp only [Prod.mk.injEq, true_and, and_true, eq_self_iff_true]
    exact ⟨by omega, by omega⟩

end Engines

/-! ### Scalar coercion (int_from_integer of utils.py) -/

/-- The three runtime shapes the source accepts for an Integer: a
Python int, a string, or a byte sequence (big endian, values 0 to 255). -/
inductive PyInteger where
  | ofInt (i : Int)
  | ofStr (s : String)
  | ofBytes (b : List Nat)
  deriving DecidableEq, Repr

/-- The hexadecimal prefix recognized by the string branch. -/
def hexMark : String := "0x"

/-- The negative hexadecimal prefix recognized by the string branch. -/
def negHexMark : String := "-0x"

/-- Stand-in for the error text of a failed string parse (the source
raises ValueError from the Python parsers or BTClibTypeError; the text
is irrelevant to the claims). -/
def msgBadHex : String := "invalid integer representation"

/-- Value of a lowercase hexadecimal digit character. -/
def hexDigitVal (c : Char) : Option Nat :=
  if ('0' ≤ c ∧ c ≤ '9') then some (c.toNat - 48)
  else if ('a' ≤ c ∧ c ≤ 'f') then some (c.toNat - 87)
  else none

/-- Parse a nonempty string of hexadecimal digits, as the Python int
constructor with base 16 does after the prefix. -/
def parseHexDigits (cs : List Char) : Option Nat :=
  if cs.isEmpty then none
  else cs.foldl (fun acc c =>
    match acc, hexDigitVal c with
    | some a, some v => some (16 * a + v)
    | _, _ => none) (some 0)

/-- bytes.fromhex pairing: an even number of hex digits, every pair one
byte. -/
def bytePairs : List Char → Option (List Nat)
  | [] => some []
  | _ :: [] => none
  | c1 :: c2 :: rest =>
    match hexDigitVal c1, hexDigitVal c2, bytePairs rest with
    | some v1, some v2, some bs => some ((16 * v1 + v2) :: bs)
    | _, _, _ => none

/-- bytes.fromhex: ASCII spaces are skipped, the rest must be an even
number of hex digits. -/
def bytesFromHex (cs : List Char) : Option (List Nat) :=
  bytePairs (cs.filter (fun c => c ≠ ' '))

/-- int.from_bytes with big-endian byte order. -/
def intFromBytesBE (b : List Nat) : Int :=
  ((b.foldl (fun a x => 256 * a + x) 0 : Nat) : Int)

/-- int_from_integer from utils.py: an int goes through unchanged, a
string is stripped and lowercased then read as signed hexadecimal with
a 0x prefix or as bytes.fromhex, and bytes are read big endian. -/
def int_from_integer : PyInteger → Except String Int
  | .ofInt i => .ok i
  | .ofStr s =>
    let t := s.trim.toLower
    if t.startsWith hexMark then
      match parseHexDigits (t.toList.drop 2) with
      | some v => .ok ((v : Nat) : Int)
      | none => .error msgBadHex
    else if t.startsWith negHexMark then
      match parseHexDigits (t.toList.drop 3) with
      | some v => .ok (-((v : Nat) : Int))
      | none => .error msgBadHex
    else
      match bytesFromHex t.toList with
      | some bs => .ok (intFromBytesBE bs)
      | none => .error msgBadHex
  | .ofBytes b => .ok (intFromBytesBE b)

/-! ### Public entry points -/

section EntryPoints

variable {G : Type} [AddCommGroup G] [DecidableEq G]

/-- Modelled from the spec: entry-point point normalization.  The
source uses ec.GJ when Q is None, otherwise checks require_on_curve and
converts the affine point to Jacobian.  In the abstract group model
every value of G is an on-curve point and the conversion, like the
final Jacobian-to-affine conversion, is the identity. -/
def normPoint (Q : Option G) (ec : CurveGroup G) : G :=
  match Q with
  | none => ec.GJ
  | some P => P

/-- The public entry point mult_mont_ladder of curvemult2.py: coerce
the scalar, reduce it modulo the group order, normalize the point,
delegate to the engine. -/
def mult_mont_ladder (m : PyInteger) (Q : Option G) (ec : CurveGroup G) : Res G :=
  match int_from_integer m with
  | .error e => .err e
  | .ok mi => mult_jac_mont_ladder (mi % (ec.n : Int)) (normPoint Q ec)

/-- The public entry point mult_base_3 of curvemult2.py. -/
def mult_base_3 (m : PyInteger) (Q : Option G) (ec : CurveGroup G) : Res G :=
  match int_from_integer m with
  | .error e => .err e
  | .ok mi => mult_jac_base_3 (mi % (ec.n : Int)) (normPoint Q ec)

/-- The public entry point mult_fixed_window of curvemult2.py: the
scalar is coerced and reduced modulo n, the window width is coerced but
not reduced. -/
def mult_fixed_window (m w : PyInteger) (Q : Option G) (ec : CurveGroup G) : Res G :=
  match int_from_integer m with
  | .error e => .err e
  | .ok mi =>
    match int_from_integer w with
    | .error e => .err e
    | .ok wi => mult_jac_fixed_window (mi % (ec.n : Int)) wi (normPoint Q ec)

/-- The public entry point mult_sliding_window of curvemult2.py. -/
def mult_sliding_window (m w : PyInteger) (Q : Option G) (ec : CurveGroup G) : Res G :=
  match int_from_integer m with
  | .error e => .err e
  | .ok mi =>
    match int_from_integer w with
    | .error e => .err e
    | .ok wi => mult_jac_sliding_window (mi % (ec.n : Int)) wi (normPoint Q ec)

/-- The public entry point mult_w_NAF of curvemult2.py. -/
def mult_w_NAF (m w : PyInteger) (Q : Option G) (ec : CurveGroup G) : Res G :=
  match int_from_integer m with
  | .error e => .err e
  | .ok mi =>
    match int_from_integer w with
    | .error e => .err e
    | .ok wi => mult_jac_w_NAF (mi % (ec.n : Int)) wi (normPoint Q ec)

end EntryPoints

/-! ### Claim theorems -/

theorem emod_emod_n (a : Int) (n : Nat) : (a % (n : Int)) % (n : Int) = a % (n : Int) :=
  Int.emod_emod_of_dvd a dvd_rfl

/-- Claim C1: for every non-negative scalar m, every point Q of the
group model and valid window widths (w at least 1 for fixed and
sliding window, v at least 2 for wNAF), the five engines agree,
returning the scalar multiple m of Q; and each public entry point
applied to any integer scalar equals itself applied to that scalar
reduced modulo the group order. -/
theorem claim_C1 {G : Type} [AddCommGroup G] [DecidableEq G]
    (m w v : Int) (Q : G) (mi : Int) (w2 : PyInteger) (OQ : Option G)
    (ec : CurveGroup G) (hm : 0 ≤ m) (hw : 1 ≤ w) (hv : 2 ≤ v) :
    (mult_jac_mont_ladder m Q = Res.ok (m.toNat • Q) ∧
      mult_jac_base_3 m Q = Res.ok (m.toNat • Q) ∧
      mult_jac_fixed_window m w Q = Res.ok (m.toNat • Q) ∧
      mult_jac_sliding_window m w Q = Res.ok (m.toNat • Q) ∧
      mult_jac_w_NAF m v Q = Res.ok (m.toNat • Q)) ∧
    (mult_mont_ladder (.ofInt mi) OQ ec
        = mult_mont_ladder (.ofInt (mi % (ec.n : Int))) OQ ec ∧
      mult_base_3 (.ofInt mi) OQ ec
        = mult_base_3 (.ofInt (mi % (ec.n : Int))) OQ ec ∧
      mult_fixed_window (.ofInt mi) w2 OQ ec
        = mult_fixed_window (.ofInt (mi % (ec.n : Int))) w2 OQ ec ∧
      mult_sliding_window (.ofInt mi) w2 OQ ec
        = mult_sliding_window (.ofInt (mi % (ec.n : Int))) w2 OQ ec ∧
      mult_w_NAF (.ofInt mi) w2 OQ ec
        = mult_w_NAF (.ofInt (mi % (ec.n : Int))) w2 OQ ec) := by
  refine ⟨⟨mult_jac_mont_ladder_eq m hm Q, mult_jac_base_3_eq m hm Q,
    mult_jac_fixed_window_eq m w hm hw Q, mult_jac_sliding_window_eq m w hm hw Q,
    mult_jac_w_NAF_eq m v hm hv Q⟩, ?_, ?_, ?_, ?_, ?_⟩
  · simp only [mult_mont_ladder, int_from_integer, emod_emod_n]
  · simp only [mult_base_3, int_from_integer, emod_emod_n]
  · simp only [mult_fixed_window, int_from_integer, emod_emod_n]
  · simp only [mult_sliding_window, int_from_integer, emod_emod_n]
  · simp only [mult_w_NAF, int_from_integer, emod_emod_n]

/-- Witness for C1 at m = 6, w = 2, v = 2, Q = 1 over the integers,
with the entry points on the order-5 group at scalar -7. -/
theorem claim_C1_witness :
    (0 ≤ (6 : Int)) ∧ (1 ≤ (2 : Int)) ∧ (2 ≤ (2 : Int)) ∧
    ((mult_jac_mont_ladder 6 (1 : ℤ) = Res.ok ((6 : Int).toNat • (1 : ℤ)) ∧
      mult_jac_base_3 6 (1 : ℤ) = Res.ok ((6 : Int).toNat • (1 : ℤ)) ∧
      mult_jac_fixed_window 6 2 (1 : ℤ) = Res.ok ((6 : Int).toNat • (1 : ℤ)) ∧
      mult_jac_sliding_window 6 2 (1 : ℤ) = Res.ok ((6 : Int).toNat • (1 : ℤ)) ∧
      mult_jac_w_NAF 6 2 (1 : ℤ) = Res.ok ((6 : Int).toNat • (1 : ℤ))) ∧
    (mult_mont_ladder (.ofInt (-7)) (some 1) (⟨5, 1⟩ : CurveGroup ℤ)
        = mult_mont_ladder (.ofInt ((-7) % ((5 : Nat) : Int))) (some 1) ⟨5, 1⟩ ∧
      mult_base_3 (.ofInt (-7)) (some 1) (⟨5, 1⟩ : CurveGroup ℤ)
        = mult_base_3 (.ofInt ((-7) % ((5 : Nat) : Int))) (some 1) ⟨5, 1⟩ ∧
      mult_fixed_window (.ofInt (-7)) (.ofInt 2) (some 1) (⟨5, 1⟩ : CurveGroup ℤ)
        = mult_fixed_window (.ofInt ((-7) % ((5 : Nat) : Int))) (.ofInt 2) (some 1) ⟨5, 1⟩ ∧
      mult_sliding_window (.ofInt (-7)) (.ofInt 2) (some 1) (⟨5, 1⟩ : CurveGroup ℤ)
        = mult_sliding_window (.ofInt ((-7) % ((5 : Nat) : Int))) (.ofInt 2) (some 1) ⟨5, 1⟩ ∧
      mult_w_NAF (.ofInt (-7)) (.ofInt 2) (some 1) (⟨5, 1⟩ : CurveGroup ℤ)
        = mult_w_NAF (.ofInt ((-7) % ((5 : Nat) : Int))) (.ofInt 2) (some 1) ⟨5, 1⟩)) :=
  ⟨by decide, by decide, by decide,
    claim_C1 6 2 2 (1 : ℤ) (-7) (.ofInt 2) (some 1) ⟨5, 1⟩
      (by decide) (by decide) (by decide)⟩

/-- Counterexample to claim C2: on the group of order 5 with generator
1 in the integer model, every public entry point applied to the scalar
-1 returns the point 4 = (5 - 1) times Q instead of raising a value
error: the Python modulo silently reduces the negative scalar. -/
theorem claim_C2_counterexample :
    mult_mont_ladder (.ofInt (-1)) (some (1 : ℤ)) ⟨5, 1⟩ = Res.ok 4 ∧
    mult_base_3 (.ofInt (-1)) (some (1 : ℤ)) ⟨5, 1⟩ = Res.ok 4 ∧
    mult_fixed_window (.ofInt (-1)) (.ofInt 2) (some (1 : ℤ)) ⟨5, 1⟩ = Res.ok 4 ∧
    mult_sliding_window (.ofInt (-1)) (.ofInt 2) (some (1 : ℤ)) ⟨5, 1⟩ = Res.ok 4 ∧
    mult_w_NAF (.ofInt (-1)) (.ofInt 2) (some (1 : ℤ)) ⟨5, 1⟩ = Res.ok 4 := by
  refine ⟨?_, ?_, ?_, ?_, ?_⟩ <;> decide

/-- Claim C2 amended: no public entry point raises on the scalar -1:
the entry points reduce the scalar modulo n first, and the Python
modulo of a negative number by a positive one is non-negative, so every
strategy returns (n - 1) times the point; only the engines, called
directly with a negative scalar, raise the value error. -/
theorem claim_C2 {G : Type} [AddCommGroup G] [DecidableEq G]
    (Q : G) (ec : CurveGroup G) (w v : Int) (hn : 1 < ec.n) (hw : 1 ≤ w) (hv : 2 ≤ v) :
    (mult_mont_ladder (.ofInt (-1)) (some Q) ec = Res.ok ((ec.n - 1) • Q) ∧
      mult_base_3 (.ofInt (-1)) (some Q) ec = Res.ok ((ec.n - 1) • Q) ∧
      mult_fixed_window (.ofInt (-1)) (.ofInt w) (some Q) ec = Res.ok ((ec.n - 1) • Q) ∧
      mult_sliding_window (.ofInt (-1)) (.ofInt w) (some Q) ec = Res.ok ((ec.n - 1) • Q) ∧
      mult_w_NAF (.ofInt (-1)) (.ofInt v) (some Q) ec = Res.ok ((ec.n - 1) • Q)) ∧
    (mult_jac_mont_ladder (-1) Q = Res.err msgNegM ∧
      mult_jac_base_3 (-1) Q = Res.err msgNegM ∧
      mult_jac_fixed_window (-1) w Q = Res.err msgNegM ∧
      mult_jac_sliding_window (-1) w Q = Res.err msgNegM ∧
      mult_jac_w_NAF (-1) v Q = Res.err msgNegM) := by
  have hn2 : (2 : Int) ≤ (ec.n : Int) := by exact_mod_cast hn
  have he : (-1 : Int) % (ec.n : Int) = (ec.n : Int) - 1 := by
    have h1 : ((-1 : Int) + (ec.n : Int) * 1) % (ec.n : Int) = (-1 : Int) % (ec.n : Int) :=
      Int.add_mul_emod_self_left (-1 : Int) ((ec.n : Nat) : Int) 1
    have h2 : ((ec.n : Int) - 1) % (ec.n : Int) = (ec.n : Int) - 1 :=
      Int.emod_eq_of_lt (by omega) (by omega)
    calc (-1 : Int) % (ec.n : Int)
        = ((-1 : Int) + (ec.n : Int) * 1) % (ec.n : Int) := h1.symm
      _ = ((ec.n : Int) - 1) % (ec.n : Int) := by ring_nf
      _ = (ec.n : Int) - 1 := h2
  have htn : ((ec.n : Int) - 1).toNat = ec.n - 1 := by omega
  have hok : ∀ P : G, Res.ok (((ec.n : Int) - 1).toNat • P) = Res.ok ((ec.n - 1) • P) := by
    intro P
    rw [htn]
  refine ⟨⟨?_, ?_, ?_, ?_, ?_⟩, ?_, ?_, ?_, ?_, ?_⟩
  · simp only [mult_mont_ladder, int_from_integer, normPoint]
    rw [he, mult_jac_mont_ladder_eq _ (by omega) Q, hok]
  · simp only [mult_base_3, int_from_integer, normPoint]
    rw [he, mult_jac_base_3_eq _ (by omega) Q, hok]
  · simp only [mult_fixed_window, int_from_integer, normPoint]
    rw [he, mult_jac_fixed_window_eq _ w (by omega) hw Q, hok]
  · simp only [mult_sliding_window, int_from_integer, normPoint]
    rw [he, mult_jac_sliding_window_eq _ w (by omega) hw Q, hok]
  · simp only [mult_w_NAF, int_from_integer, normPoint]
    rw [he, mult_jac_w_NAF_eq _ v (by omega) hv Q, hok]
  · rw [mult_jac_mont_ladder, if_pos (by norm_num)]
  · rw [mult_jac_base_3, if_pos (by norm_num)]
  · rw [mult_jac_fixed_window, if_pos (by norm_num)]
  · rw [mult_jac_sliding_window, if_pos (by norm_num)]
  · rw [mult_jac_w_NAF, if_pos (by norm_num)]

/-- Witness for C2 on the order-5 group with Q = 1, w = 1, v = 2. -/
theorem claim_C2_witness :
    (1 < (5 : Nat)) ∧ (1 ≤ (1 : Int)) ∧ (2 ≤ (2 : Int)) ∧
    ((mult_mont_ladder (.ofInt (-1)) (some (1 : ℤ)) ⟨5, 1⟩ = Res.ok ((5 - 1) • (1 : ℤ)) ∧
      mult_base_3 (.ofInt (-1)) (some (1 : ℤ)) ⟨5, 1⟩ = Res.ok ((5 - 1) • (1 : ℤ)) ∧
      mult_fixed_window (.ofInt (-1)) (.ofInt 1) (some (1 : ℤ)) ⟨5, 1⟩
        = Res.ok ((5 - 1) • (1 : ℤ)) ∧
      mult_sliding_window (.ofInt (-1)) (.ofInt 1) (some (1 : ℤ)) ⟨5, 1⟩
        = Res.ok ((5 - 1) • (1 : ℤ)) ∧
      mult_w_NAF (.ofInt (-1)) (.ofInt 2) (some (1 : ℤ)) ⟨5, 1⟩
        = Res.ok ((5 - 1) • (1 : ℤ))) ∧
    (mult_jac_mont_ladder (-1) (1 : ℤ) = Res.err msgNegM ∧
      mult_jac_base_3 (-1) (1 : ℤ) = Res.err msgNegM ∧
      mult_jac_fixed_window (-1) 1 (1 : ℤ) = Res.err msgNegM ∧
      mult_jac_sliding_window (-1) 1 (1 : ℤ) = Res.err msgNegM ∧
      mult_jac_w_NAF (-1) 2 (1 : ℤ) = Res.err msgNegM)) :=
  ⟨by decide, by decide, by decide,
    claim_C2 (1 : ℤ) ⟨5, 1⟩ 1 2 (by decide) (by decide) (by decide)⟩

/-- Claim C3: on a non-infinity point the Montgomery ladder performs
exactly one group addition and one doubling per bit: for two
non-negative scalars of the same bit length k the ghost call counts are
(k, k) for both, whatever the bit patterns. -/
theorem claim_C3 {G : Type} [AddCommGroup G] [DecidableEq G]
    (m1 m2 : Int) (k : Nat) (Q : G) (hm1 : 0 ≤ m1) (hm2 : 0 ≤ m2) (hQ : Q ≠ 0)
    (hk1 : (numberToBase m1.toNat 2).length = k)
    (hk2 : (numberToBase m2.toNat 2).length = k) :
    montLadderOps m1 Q = (k, k) ∧ montLadderOps m2 Q = (k, k) := by
  constructor
  · rw [montLadderOps, ladderInstr_foldl _ (0, Q) 0 0, hk1]
    simp
  · rw [montLadderOps, ladderInstr_foldl _ (0, Q) 0 0, hk2]
    simp

/-- Witness for C3 at the 3-bit scalars 5 and 7 with Q = 1. -/
theorem claim_C3_witness :
    (0 ≤ (5 : Int)) ∧ (0 ≤ (7 : Int)) ∧ ((1 : ℤ) ≠ 0) ∧
    ((numberToBase (5 : Int).toNat 2).length = 3) ∧
    ((numberToBase (7 : Int).toNat 2).length = 3) ∧
    (montLadderOps 5 (1 : ℤ) = (3, 3) ∧ montLadderOps 7 (1 : ℤ) = (3, 3)) :=
  ⟨by decide, by decide, by decide, by decide, by decide,
    claim_C3 5 7 3 (1 : ℤ) (by decide) (by decide) (by decide) (by decide) (by decide)⟩

/-- Counterexample to claim C4: with w = 3 and Q = 1 in the integer
model the sliding-window table is [4, 5, 6, 7] — the consecutive
multiples of Q from 2^(w-1) Q to (2^w - 1) Q: entry 1 is 5 Q, not the
odd multiple 3 Q the claim asserts, and the initial doubling chain
produces 2^(w-1) Q = 4 Q, not 2 Q. -/
theorem claim_C4_counterexample :
    slidingTable (1 : ℤ) 3 = [4, 5, 6, 7] ∧
    (slidingTable (1 : ℤ) 3).getD 1 0 ≠ (3 : Nat) • (1 : ℤ) ∧
    doubleN (1 : ℤ) (3 - 1) ≠ (2 : Nat) • (1 : ℤ) := by
  refine ⟨?_, ?_, ?_⟩ <;> decide

/-- Claim C4 amended: for every w at least 1 the sliding-window table
has exactly 2 ^ (w-1) entries and entry i is the consecutive multiple
(2^(w-1) + i) Q, built by first computing 2^(w-1) Q via w - 1 doublings
of Q and then chaining additions of Q (not odd multiples, and not
additions of 2Q). -/
theorem claim_C4 {G : Type} [AddCommGroup G] [DecidableEq G]
    (Q : G) (w i : Nat) (hw : 1 ≤ w) (hi : i < 2 ^ (w - 1)) :
    (slidingTable Q w).length = 2 ^ (w - 1) ∧
    (slidingTable Q w).getD i 0 = (2 ^ (w - 1) + i) • Q ∧
    doubleN Q (w - 1) = 2 ^ (w - 1) • Q := by
  refine ⟨chainTable_length _ _ _, ?_, doubleN_eq Q (w - 1)⟩
  rw [slidingTable, chainTable_getD _ _ _ i hi, doubleN_eq, add_smul]

/-- Witness for C4 at w = 3, i = 1, Q = 1. -/
theorem claim_C4_witness :
    (1 ≤ 3) ∧ (1 < 2 ^ (3 - 1)) ∧
    ((slidingTable (1 : ℤ) 3).length = 2 ^ (3 - 1) ∧
      (slidingTable (1 : ℤ) 3).getD 1 0 = (2 ^ (3 - 1) + 1) • (1 : ℤ) ∧
      doubleN (1 : ℤ) (3 - 1) = 2 ^ (3 - 1) • (1 : ℤ)) :=
  ⟨by decide, by decide, claim_C4 (1 : ℤ) 3 1 (by decide) (by decide)⟩

/-- Claim C5 (code bug): the wNAF engine only rejects w at most 0, so
w = 1 is not rejected; on the scalar 1 the digit decomposition loop
then reproduces the same state forever — mods 1 1 = -1 and
(1 - (-1)) / 2 = 1 — so it returns none at every fuel, and the engine
hangs instead of raising the value error the specification requires. -/
theorem claim_C5 :
    (∀ fuel : Nat, wnafLoop 1 fuel 1 = none) ∧
    mult_jac_w_NAF 1 1 (1 : ℤ) = Res.hang := by
  have hloop : ∀ fuel : Nat, wnafLoop 1 fuel 1 = none := by
    intro fuel
    induction fuel with
    | zero => decide
    | succ f ih =>
      have h1 : ((1 : Int) - mods 1 1) / 2 = 1 := by decide
      simp only [wnafLoop]
      rw [if_pos (by norm_num), if_pos (by decide), h1, ih]
      rfl
  exact ⟨hloop, by decide⟩

/-- Counterexample to claim C6: with w = 0 the windowed engines return
the infinity point instead of raising, whenever the infinity
short-circuit (or, for wNAF, the zero-scalar short-circuit) fires,
because those guards precede the window validation in the source. -/
theorem claim_C6_counterexample :
    mult_jac_fixed_window 0 0 (0 : ℤ) = Res.ok 0 ∧
    mult_jac_sliding_window 0 0 (0 : ℤ) = Res.ok 0 ∧
    mult_jac_w_NAF 0 0 (1 : ℤ) = Res.ok 0 := by
  refine ⟨?_, ?_, ?_⟩ <;> decide

/-- Claim C6 amended: for a non-negative scalar and w at most 0 the
three windowed engines raise the window value error before any table
work, provided the guards that the source checks earlier do not fire:
the point is not infinity, and (for wNAF) the scalar is not zero;
otherwise the engines return infinity without validating w. -/
theorem claim_C6 {G : Type} [AddCommGroup G] [DecidableEq G]
    (m m2 w : Int) (Q : G) (hm2 : 0 ≤ m2) (hm : 0 ≤ m) (hm0 : m ≠ 0)
    (hw : w ≤ 0) (hQ : Q ≠ 0) :
    mult_jac_fixed_window m2 w Q = Res.err msgWPos ∧
    mult_jac_sliding_window m2 w Q = Res.err msgWPos ∧
    mult_jac_w_NAF m w Q = Res.err msgWPos := by
  refine ⟨?_, ?_, ?_⟩
  · rw [mult_jac_fixed_window, if_neg (by omega), if_neg hQ, if_pos hw]
  · rw [mult_jac_sliding_window, if_neg (by omega), if_neg hQ, if_pos hw]
  · rw [mult_jac_w_NAF, if_neg (by omega), if_neg hm0, if_neg hQ, if_pos hw]

/-- Witness for C6 at m = 1 (wNAF), m2 = 0 (windowed), w = 0, Q = 1. -/
theorem claim_C6_witness :
    (0 ≤ (0 : Int)) ∧ (0 ≤ (1 : Int)) ∧ ((1 : Int) ≠ 0) ∧ ((0 : Int) ≤ 0) ∧
    ((1 : ℤ) ≠ 0) ∧
    (mult_jac_fixed_window 0 0 (1 : ℤ) = Res.err msgWPos ∧
      mult_jac_sliding_window 0 0 (1 : ℤ) = Res.err msgWPos ∧
      mult_jac_w_NAF 1 0 (1 : ℤ) = Res.err msgWPos) :=
  ⟨by decide, by decide, by decide, by decide, by decide,
    claim_C6 1 0 0 (1 : ℤ) (by decide) (by decide) (by decide) (by decide) (by decide)⟩

/-- Counterexample to claim C7: the wNAF decomposition of the scalar 3
with w = 2 emits the digit -1; the index the claim prescribes for it,
halfSize - (|d| + 1) / 2 = 2 - 1 = 1, holds the table entry 3 Q, not
the required -|d| Q = -Q, and differs from the index the code uses,
halfSize - (d + 1) / 2 = 2. -/
theorem claim_C7_counterexample :
    wnafLoop 2 4 3 = some [-1, 0, 1] ∧
    (wnafTable (1 : ℤ) 2).getD (2 - ((Int.natAbs (-1) + 1) / 2)) 0 ≠ (-1 : Int) • (1 : ℤ) ∧
    (((2 : Int) - ((-1 : Int) + 1) / 2)).toNat ≠ 2 - ((Int.natAbs (-1) + 1) / 2) := by
  refine ⟨?_, ?_, ?_⟩ <;> decide

/-- Claim C7 amended: for w at least 2, every nonzero digit d of the
wNAF decomposition leads the scan to add the table entry equal to
d times Q: for positive d at lower-half index (d-1)/2, and for negative
d at the upper-half index halfSize - (d+1)/2 = halfSize + (|d|-1)/2,
whose entry is the negated odd multiple -(|d|) Q = d Q. -/
theorem claim_C7 {G : Type} [AddCommGroup G] [DecidableEq G]
    (Q : G) (m : Int) (w fuel : Nat) (D : List Int) (d : Int)
    (hw : 2 ≤ w) (hD : wnafLoop w fuel m = some D) (hd : d ∈ D) (hd0 : d ≠ 0) :
    (0 < d → ((d - 1) / 2).toNat < 2 ^ (w - 1) ∧
      (wnafTable Q (2 ^ (w - 1))).getD ((d - 1) / 2).toNat 0 = d • Q) ∧
    (d < 0 →
      ((((2 ^ (w - 1) : Nat) : Int) - (d + 1) / 2).toNat
          = 2 ^ (w - 1) + (d.natAbs - 1) / 2 ∧
        2 ^ (w - 1) ≤ (((2 ^ (w - 1) : Nat) : Int) - (d + 1) / 2).toNat ∧
        (((2 ^ (w - 1) : Nat) : Int) - (d + 1) / 2).toNat < 2 * 2 ^ (w - 1)) ∧
      (wnafTable Q (2 ^ (w - 1))).getD
        ((((2 ^ (w - 1) : Nat) : Int) - (d + 1) / 2).toNat) 0 = d • Q) := by
  have hshape := wnafLoop_digits w hw fuel m D hD d hd
  have hgood : d % 2 = 1 ∧ -(2 ^ (w - 1) : Int) < d ∧ d < 2 ^ (w - 1) := by
    rcases hshape with h | h
    · exact absurd h hd0
    · exact h
  have hcast : (((2 ^ (w - 1) : Nat)) : Int) = (2 : Int) ^ (w - 1) := by
    push_cast
    ring
  constructor
  · intro hpos
    have hidx : ((d - 1) / 2).toNat < 2 ^ (w - 1) := by
      have h2 : ((2 ^ (w - 1) : Nat) : Int) = (2 : Int) ^ (w - 1) := hcast
      omega
    refine ⟨hidx, ?_⟩
    rw [wnafTable_lower Q _ _ hidx]
    congr 1
    omega
  · intro hneg
    have h2 : ((2 ^ (w - 1) : Nat) : Int) = (2 : Int) ^ (w - 1) := hcast
    have hidx1 : 2 ^ (w - 1) ≤ (((2 ^ (w - 1) : Nat) : Int) - (d + 1) / 2).toNat := by
      omega
    have hidx2 : (((2 ^ (w - 1) : Nat) : Int) - (d + 1) / 2).toNat < 2 * 2 ^ (w - 1) := by
      omega
    refine ⟨⟨by omega, hidx1, hidx2⟩, ?_⟩
    rw [wnafTable_upper Q _ _ hidx1 hidx2]
    rw [show 2 * (((((2 ^ (w - 1) : Nat) : Int) - (d + 1) / 2).toNat : Int)
        - ((2 ^ (w - 1) : Nat) : Int)) + 1 = -d from by omega]
    rw [neg_smul, neg_neg]

/-- Witness for C7 at Q = 1, m = 3, w = 2, digit -1. -/
theorem claim_C7_witness :
    (2 ≤ 2) ∧ (wnafLoop 2 4 3 = some [-1, 0, 1]) ∧ ((-1 : Int) ∈ [-1, 0, 1]) ∧
    ((-1 : Int) ≠ 0) ∧
    ((0 < (-1 : Int) → (((-1 : Int) - 1) / 2).toNat < 2 ^ (2 - 1) ∧
      (wnafTable (1 : ℤ) (2 ^ (2 - 1))).getD (((-1 : Int) - 1) / 2).toNat 0
        = (-1 : Int) • (1 : ℤ)) ∧
    ((-1 : Int) < 0 →
      ((((2 ^ (2 - 1) : Nat) : Int) - ((-1 : Int) + 1) / 2).toNat
          = 2 ^ (2 - 1) + ((-1 : Int).natAbs - 1) / 2 ∧
        2 ^ (2 - 1) ≤ (((2 ^ (2 - 1) : Nat) : Int) - ((-1 : Int) + 1) / 2).toNat ∧
        (((2 ^ (2 - 1) : Nat) : Int) - ((-1 : Int) + 1) / 2).toNat < 2 * 2 ^ (2 - 1)) ∧
      (wnafTable (1 : ℤ) (2 ^ (2 - 1))).getD
        ((((2 ^ (2 - 1) : Nat) : Int) - ((-1 : Int) + 1) / 2).toNat) 0
        = (-1 : Int) • (1 : ℤ))) :=
  ⟨by decide, by decide, by decide, by decide,
    claim_C7 (1 : ℤ) 3 2 4 [-1, 0, 1] (-1) (by decide) (by decide) (by decide) (by decide)⟩

/-- Claim C8: for every integer m and every w at least 1, mods m w is
congruent to m modulo 2 ^ w and lies in the centered range from
-(2 ^ (w - 1)) to 2 ^ (w - 1) - 1. -/
theorem claim_C8 (m : Int) (w : Nat) (hw : 1 ≤ w) :
    Int.ModEq (2 ^ w) (mods m w) m ∧
    -(2 ^ (w - 1)) ≤ mods m w ∧ mods m w ≤ 2 ^ (w - 1) - 1 :=
  ⟨mods_modeq m w, (mods_range m w hw).1, (mods_range m w hw).2⟩

/-- Witness for C8 at m = 13, w = 3: the centered representative is -3. -/
theorem claim_C8_witness :
    1 ≤ 3 ∧
    (Int.ModEq (2 ^ 3) (mods 13 3) 13 ∧
      -(2 ^ (3 - 1)) ≤ mods 13 3 ∧ mods 13 3 ≤ 2 ^ (3 - 1) - 1) :=
  ⟨by decide, claim_C8 13 3 (by decide)⟩

/-- Claim C9: with valid window widths, every engine maps the scalar 0
to infinity and the scalar 1 to Q itself, and maps the infinity input
point to infinity for every non-negative scalar. -/
theorem claim_C9 {G : Type} [AddCommGroup G] [DecidableEq G]
    (w v m : Int) (Q : G) (hw : 1 ≤ w) (hv : 2 ≤ v) (hm : 0 ≤ m) :
    (mult_jac_mont_ladder 0 Q = Res.ok 0 ∧
      mult_jac_base_3 0 Q = Res.ok 0 ∧
      mult_jac_fixed_window 0 w Q = Res.ok 0 ∧
      mult_jac_sliding_window 0 w Q = Res.ok 0 ∧
      mult_jac_w_NAF 0 v Q = Res.ok 0) ∧
    (mult_jac_mont_ladder 1 Q = Res.ok Q ∧
      mult_jac_base_3 1 Q = Res.ok Q ∧
      mult_jac_fixed_window 1 w Q = Res.ok Q ∧
      mult_jac_sliding_window 1 w Q = Res.ok Q ∧
      mult_jac_w_NAF 1 v Q = Res.ok Q) ∧
    (mult_jac_mont_ladder m (0 : G) = Res.ok 0 ∧
      mult_jac_base_3 m (0 : G) = Res.ok 0 ∧
      mult_jac_fixed_window m w (0 : G) = Res.ok 0 ∧
      mult_jac_sliding_window m w (0 : G) = Res.ok 0 ∧
      mult_jac_w_NAF m v (0 : G) = Res.ok 0) := by
  have h0 : ((0 : Int).toNat) • Q = 0 := by simp
  have h1 : ((1 : Int).toNat) • Q = Q := by simp
  refine ⟨⟨?_, ?_, ?_, ?_, ?_⟩, ⟨?_, ?_, ?_, ?_, ?_⟩, ⟨?_, ?_, ?_, ?_, ?_⟩⟩
  · rw [mult_jac_mont_ladder_eq 0 (by norm_num) Q, h0]
  · rw [mult_jac_base_3_eq 0 (by norm_num) Q, h0]
  · rw [mult_jac_fixed_window_eq 0 w (by norm_num) hw Q, h0]
  · rw [mult_jac_sliding_window_eq 0 w (by norm_num) hw Q, h0]
  · rw [mult_jac_w_NAF_eq 0 v (by norm_num) hv Q, h0]
  · rw [mult_jac_mont_ladder_eq 1 (by norm_num) Q, h1]
  · rw [mult_jac_base_3_eq 1 (by norm_num) Q, h1]
  · rw [mult_jac_fixed_window_eq 1 w (by norm_num) hw Q, h1]
  · rw [mult_jac_sliding_window_eq 1 w (by norm_num) hw Q, h1]
  · rw [mult_jac_w_NAF_eq 1 v (by norm_num) hv Q, h1]
  · rw [mult_jac_mont_ladder_eq m hm (0 : G), smul_zero]
  · rw [mult_jac_base_3_eq m hm (0 : G), smul_zero]
  · rw [mult_jac_fixed_window_eq m w hm hw (0 : G), smul_zero]
  · rw [mult_jac_sliding_window_eq m w hm hw (0 : G), smul_zero]
  · rw [mult_jac_w_NAF_eq m v hm hv (0 : G), smul_zero]

/-- Witness for C9 at w = 1, v = 2, m = 7, Q = 1. -/
theorem claim_C9_witness :
    (1 ≤ (1 : Int)) ∧ (2 ≤ (2 : Int)) ∧ (0 ≤ (7 : Int)) ∧
    ((mult_jac_mont_ladder 0 (1 : ℤ) = Res.ok 0 ∧
      mult_jac_base_3 0 (1 : ℤ) = Res.ok 0 ∧
      mult_jac_fixed_window 0 1 (1 : ℤ) = Res.ok 0 ∧
      mult_jac_sliding_window 0 1 (1 : ℤ) = Res.ok 0 ∧
      mult_jac_w_NAF 0 2 (1 : ℤ) = Res.ok 0) ∧
    (mult_jac_mont_ladder 1 (1 : ℤ) = Res.ok 1 ∧
      mult_jac_base_3 1 (1 : ℤ) = Res.ok 1 ∧
      mult_jac_fixed_window 1 1 (1 : ℤ) = Res.ok 1 ∧
      mult_jac_sliding_window 1 1 (1 : ℤ) = Res.ok 1 ∧
      mult_jac_w_NAF 1 2 (1 : ℤ) = Res.ok 1) ∧
    (mult_jac_mont_ladder 7 (0 : ℤ) = Res.ok 0 ∧
      mult_jac_base_3 7 (0 : ℤ) = Res.ok 0 ∧
      mult_jac_fixed_window 7 1 (0 : ℤ) = Res.ok 0 ∧
      mult_jac_sliding_window 7 1 (0 : ℤ) = Res.ok 0 ∧
      mult_jac_w_NAF 7 2 (0 : ℤ) = Res.ok 0)) :=
  ⟨by decide, by decide, by decide,
    claim_C9 1 2 7 (1 : ℤ) (by decide) (by decide) (by decide)⟩

/-- Claim C10: the Montgomery ladder loop invariant.  For every prefix
of the bit list of m, the state reached from (INFJ, Q0) satisfies: the
second accumulator minus the first equals the input point Q0, and the
first accumulator is v times Q0 where v is the value of the bits
consumed so far; on exit the first accumulator is m times Q0. -/
theorem claim_C10 {G : Type} [AddCommGroup G] [DecidableEq G]
    (m : Int) (Q0 : G) (pre suf : List Nat) (hm : 0 ≤ m) (hQ : Q0 ≠ 0)
    (hsplit : numberToBase m.toNat 2 = pre ++ suf) :
    ((pre.foldl ladderStep ((0 : G), Q0)).2 - (pre.foldl ladderStep ((0 : G), Q0)).1 = Q0 ∧
      (pre.foldl ladderStep ((0 : G), Q0)).1 = (baseVal 2 pre) • Q0) ∧
    ((numberToBase m.toNat 2).foldl ladderStep ((0 : G), Q0)).1 = m.toNat • Q0 := by
  have hall : ∀ d ∈ numberToBase m.toNat 2, d < 2 :=
    numberToBase_digit_lt m.toNat 2 le_rfl
  have hpre : ∀ d ∈ pre, d < 2 := by
    intro d hd
    refine hall d ?_
    rw [hsplit]
    exact List.mem_append_left suf hd
  have h0 : ((0 : Nat) • Q0, ((0 : Nat) + 1) • Q0) = ((0 : G), Q0) := by simp
  have hinv := ladder_invariant Q0 pre hpre 0
  rw [h0] at hinv
  constructor
  · constructor
    · rw [hinv]
      simp [add_smul]
    · rw [hinv]
      rfl
  · rw [ladder_foldl_eq Q0 _ hall, baseVal_numberToBase m.toNat 2 le_rfl]

/-- Witness for C10 at m = 5, prefix [1], suffix [0, 1], Q0 = 1. -/
theorem claim_C10_witness :
    (0 ≤ (5 : Int)) ∧ ((1 : ℤ) ≠ 0) ∧
    (numberToBase (5 : Int).toNat 2 = [1] ++ [0, 1]) ∧
    ((([1] : List Nat).foldl ladderStep ((0 : ℤ), 1)).2
        - (([1] : List Nat).foldl ladderStep ((0 : ℤ), 1)).1 = 1 ∧
      (([1] : List Nat).foldl ladderStep ((0 : ℤ), 1)).1 = (baseVal 2 [1]) • (1 : ℤ)) ∧
    ((numberToBase (5 : Int).toNat 2).foldl ladderStep ((0 : ℤ), 1)).1
        = (5 : Int).toNat • (1 : ℤ) :=
  ⟨by decide, by decide, by decide,
    (claim_C10 5 (1 : ℤ) [1] [0, 1] (by decide) (by decide) (by decide)).1,
    (claim_C10 5 (1 : ℤ) [1] [0, 1] (by decide) (by decide) (by decide)).2⟩

end Btclib
